import Mathlib

/-!
Shallow embedding of the `HaproxyLogFile` log-file engine
(`haproxy/haproxy_logfile.py`): ingestion with the valid/invalid split and
time-window filtering, chronological resorting, and the analytics commands
`cmd_queue_peaks`, `cmd_top_ips`, `cmd_ip_counter` and `cmd_slow_requests`.

Timestamps are modelled as naturals; the external line parser
(`HaproxyLogLine`) is modelled as a parameter `parse : String → Option LogEntry`
(`none` = the parsed line reports `valid = False`), and the log file itself as
the list of its raw lines.
-/

/-- One validated log line (`HaproxyLogLine`): exactly the fields the engine
reads. -/
structure LogEntry where
  accept_date : Nat
  http_request_method : String
  http_request_path : String
  status_code : Nat
  time_wait_response : Int
  server_name : String
  queue_backend : Nat
  captured_request_headers : Option String
deriving DecidableEq, Repr

/-- One record emitted by `cmd_queue_peaks`: the dict
`{'peak': .., 'span': .., 'first': .., 'last': ..}`.  `first` is an
`Option` because the Python variable `first_on_queue` starts as `None`. -/
structure PeakRecord where
  peak : Nat
  span : Nat
  first : Option Nat
  last : Nat
deriving DecidableEq, Repr

/-- Loop state of `cmd_queue_peaks`: the accumulator list and the variables
`current_peak`, `current_span`, `first_on_queue`. -/
structure QPState where
  peaks : List PeakRecord
  current_peak : Nat
  current_span : Nat
  first_on_queue : Option Nat
deriving DecidableEq, Repr

/-- One iteration of the `for line in self._valid_lines` loop of
`cmd_queue_peaks`, in the Python statement order: bump `current_span`, set
`first_on_queue` if unset, emit and reset when `queue == 0` and
`current_peak > threshold`, finally `current_peak = max(current_peak, queue)`. -/
def qpStep (threshold : Nat) (s : QPState) (line : LogEntry) : QPState :=
  if line.queue_backend = 0 ∧ threshold < s.current_peak then
    ⟨s.peaks ++
        [⟨s.current_peak,
          if 0 < line.queue_backend then s.current_span + 1 else s.current_span,
          if 0 < line.queue_backend ∧ s.first_on_queue = none then some line.accept_date
          else s.first_on_queue,
          line.accept_date⟩],
      0, 0, none⟩
  else
    ⟨s.peaks, max s.current_peak line.queue_backend,
      if 0 < line.queue_backend then s.current_span + 1 else s.current_span,
      if 0 < line.queue_backend ∧ s.first_on_queue = none then some line.accept_date
      else s.first_on_queue⟩

/-- `cmd_queue_peaks` over the (already chronological) valid entries: the scan
with threshold 1, plus the trailing emit when the input ends while the last
entry is still queued (`queue > 0`) and `current_peak > threshold`.  The
Python variable `line` after the loop is the last element of the list. -/
def cmd_queue_peaks (lines : List LogEntry) : List PeakRecord :=
  let s := lines.foldl (qpStep 1) ⟨[], 0, 0, none⟩
  match lines.getLast? with
  | none => s.peaks
  | some line =>
    if 0 < line.queue_backend ∧ 1 < s.current_peak then
      s.peaks ++ [⟨s.current_peak, s.current_span, s.first_on_queue, line.accept_date⟩]
    else s.peaks

/-- A peak record is closed inside the scan: some entry with positive queue is
immediately followed by an entry with queue 0 whose accept date is the
record's `last`. -/
def ClosedIn (l : List LogEntry) (p : PeakRecord) : Prop :=
  ∃ i a b, l[i]? = some a ∧ l[i + 1]? = some b ∧
    0 < a.queue_backend ∧ b.queue_backend = 0 ∧ p.last = b.accept_date

/-- The last element of `l` exists and has a positive backend queue. -/
def LastQueued (l : List LogEntry) : Prop :=
  ∃ i a, l[i]? = some a ∧ l[i + 1]? = none ∧ 0 < a.queue_backend

/-- One entry of the result of `cmd_top_ips`: the dict
`{'ip': .., 'repetitions': ..}`. -/
structure IpInfo where
  ip : String
  repetitions : Nat
deriving DecidableEq, Repr

/-- Loop state of `cmd_top_ips`: the candidate list and the running minimum
trackers `min_repetitions` (initially the sentinel 99999) and `min_ip`
(initially `None`). -/
structure TopState where
  ips_list : List IpInfo
  min_repetitions : Nat
  min_ip : Option String
deriving DecidableEq, Repr

/-- The eviction scan of `cmd_top_ips`: replace the first candidate whose key
equals `min_ip` (no replacement when no candidate matches, in particular when
`min_ip` is `None`). -/
def replaceFirst : List IpInfo → Option String → IpInfo → List IpInfo
  | [], _, _ => []
  | x :: xs, m, n => if some x.ip = m then n :: xs else x :: replaceFirst xs m n

/-- One iteration of the `for ip in ips_dict` loop of `cmd_top_ips`: below
`threshold` candidates, append and track the running minimum; otherwise evict
the tracked minimum candidate when the new count is strictly larger. -/
def topStep (threshold : Nat) (s : TopState) (kv : String × Nat) : TopState :=
  if s.ips_list.length < threshold then
    ⟨s.ips_list ++ [⟨kv.1, kv.2⟩],
     if kv.2 < s.min_repetitions then kv.2 else s.min_repetitions,
     if kv.2 < s.min_repetitions then some kv.1 else s.min_ip⟩
  else if s.min_repetitions < kv.2 then
    ⟨replaceFirst s.ips_list s.min_ip ⟨kv.1, kv.2⟩, s.min_repetitions, s.min_ip⟩
  else s

/-- Descending order on repetition counts, the key of the final
`sorted(..., reverse=True)` of `cmd_top_ips`. -/
def ipGE (a b : IpInfo) : Prop := b.repetitions ≤ a.repetitions

instance : DecidableRel ipGE := fun _ b => Nat.decLe b.repetitions _

instance : IsTotal IpInfo ipGE := ⟨fun a b => Nat.le_total b.repetitions a.repetitions⟩

instance : IsTrans IpInfo ipGE := ⟨fun _ _ _ hab hbc => Nat.le_trans hbc hab⟩

/-- `cmd_top_ips` over a histogram, given as the association list the dict
iteration visits (key with its repetition count, in insertion order). -/
def cmd_top_ips (hist : List (String × Nat)) : List IpInfo :=
  List.insertionSort ipGE ((hist.foldl (topStep 10) ⟨[], 99999, none⟩).ips_list)

/-- The record `{'ip': kv.1, 'repetitions': kv.2}` built for a histogram
entry. -/
def mkIp (kv : String × Nat) : IpInfo := ⟨kv.1, kv.2⟩

/-- Running-minimum tracker of the fill phase of `cmd_top_ips`: fold the
`if repetitions < min_repetitions` update over a histogram, starting from a
given `(min_repetitions, min_ip)` pair. -/
def runMin : List (String × Nat) → Nat × Option String → Nat × Option String
  | [], acc => acc
  | kv :: rest, acc => runMin rest (if kv.2 < acc.1 then (kv.2, some kv.1) else acc)

/-- The Python slice `captured_request_headers[1:-1]`: drop the first and the
last character. -/
def stripEnds (s : String) : String :=
  String.mk ((s.data.drop 1).dropLast)

/-- One `defaultdict(int)` increment `d[k] += 1` on an association list kept
in insertion order: bump the existing key or append it with count 1. -/
def bumpKey : List (String × Nat) → String → List (String × Nat)
  | [], k => [(k, 1)]
  | kv :: rest, k => if kv.1 = k then (kv.1, kv.2 + 1) :: rest else kv :: bumpKey rest k

/-- `cmd_ip_counter`: histogram of the captured request header with its
surrounding bracket characters stripped; entries without captured headers are
skipped. -/
def cmd_ip_counter (lines : List LogEntry) : List (String × Nat) :=
  lines.foldl
    (fun acc line =>
      match line.captured_request_headers with
      | none => acc
      | some h => bumpKey acc (stripEnds h))
    []

/-- `cmd_slow_requests`: collect `time_wait_response` of every valid entry
strictly above the fixed 1000 ms threshold, in input order. -/
def cmd_slow_requests : List LogEntry → List Int
  | [] => []
  | line :: rest =>
    if 1000 < line.time_wait_response then
      line.time_wait_response :: cmd_slow_requests rest
    else cmd_slow_requests rest

/-- Constructor state of `HaproxyLogFile`: the configured data source (the
lines of the log file, `none` when unconfigured), `start` and `delta`. -/
structure HaproxyLogFile where
  logfile : Option (List String)
  start_time : Option Nat
  delta : Option Nat
deriving Repr

/-- Derived `end_time = start + delta` when both are configured, else `None`,
as in `__init__`. -/
def end_time (cfg : HaproxyLogFile) : Option Nat :=
  match cfg.start_time, cfg.delta with
  | some s, some d => some (s + d)
  | _, _ => none

/-- `_is_in_time_range`: `True` when no `start_time` is configured; `False`
when the entry is strictly before `start_time`; then `True` when no
`end_time` is configured; `False` when strictly after `end_time`. -/
def is_in_time_range (start_t end_t : Option Nat) (line : LogEntry) : Bool :=
  match start_t with
  | none => true
  | some s =>
    if line.accept_date < s then false
    else
      match end_t with
      | none => true
      | some e => !(e < line.accept_date)

/-- The three collections `parse_file` fills: `total_lines`, the (pre- or
post-sort) `_valid_lines` and `_invalid_lines`. -/
structure IngestResult where
  total_lines : Nat
  valid_lines : List LogEntry
  invalid_lines : List String
deriving DecidableEq, Repr

/-- Leading and trailing whitespace removal on the character list, the model
of Python's `str.strip()`. -/
def stripChars (l : List Char) : List Char :=
  ((l.dropWhile Char.isWhitespace).reverse.dropWhile Char.isWhitespace).reverse

/-- Python's `line.strip()`. -/
def pyStrip (s : String) : String := String.mk (stripChars s.data)

/-- One iteration of the `for line in logfile` loop of `parse_file`: count the
line, strip it, parse it; failures go to `_invalid_lines`, in-window entries
to `_valid_lines`, out-of-window entries are dropped. -/
def ingestStep (parse : String → Option LogEntry) (start_t end_t : Option Nat)
    (acc : IngestResult) (line : String) : IngestResult :=
  let stripped := pyStrip line
  match parse stripped with
  | none => ⟨acc.total_lines + 1, acc.valid_lines, acc.invalid_lines ++ [stripped]⟩
  | some entry =>
    if is_in_time_range start_t end_t entry then
      ⟨acc.total_lines + 1, acc.valid_lines ++ [entry], acc.invalid_lines⟩
    else
      ⟨acc.total_lines + 1, acc.valid_lines, acc.invalid_lines⟩

/-- Ordering key of `_sort_lines`: ascending `accept_date`. -/
def dateLE (a b : LogEntry) : Prop := a.accept_date ≤ b.accept_date

instance : DecidableRel dateLE := fun a b => Nat.decLe a.accept_date b.accept_date

instance : IsTotal LogEntry dateLE := ⟨fun a b => Nat.le_total a.accept_date b.accept_date⟩

instance : IsTrans LogEntry dateLE := ⟨fun _ _ _ h1 h2 => Nat.le_trans h1 h2⟩

/-- `_sort_lines`: Python's `sorted` is a stable sort, modelled as stable
insertion sort on the `accept_date` key. -/
def sort_lines (l : List LogEntry) : List LogEntry := List.insertionSort dateLE l

/-- The state of the three collections right after the ingestion loop, before
`_sort_lines` runs (raw file order). -/
def rawIngest (parse : String → Option LogEntry) (cfg : HaproxyLogFile)
    (ls : List String) : IngestResult :=
  ls.foldl (ingestStep parse cfg.start_time (end_time cfg)) ⟨0, [], []⟩

/-- `parse_file`: raise (`Except.error`) when no log file is configured,
otherwise run the ingestion loop over every raw line and finish with
`_sort_lines`. -/
def parse_file (parse : String → Option LogEntry) (cfg : HaproxyLogFile) :
    Except String IngestResult :=
  match cfg.logfile with
  | none => Except.error "No log file is configured yet!"
  | some ls =>
    let r := rawIngest parse cfg ls
    Except.ok ⟨r.total_lines, sort_lines r.valid_lines, r.invalid_lines⟩

/-- Entry with a given accept date and backend queue depth and neutral
remaining fields, used for concrete witnesses. -/
def mkE (d q : Nat) : LogEntry :=
  ⟨d, "GET", "/", 200, 0, "srv", q, none⟩

/-- Entry with a given accept date and captured header, used for concrete
witnesses. -/
def mkH (d : Nat) (h : String) : LogEntry :=
  ⟨d, "GET", "/", 200, 0, "srv", 0, some h⟩

/-- Entry with a given response time and neutral remaining fields, used for
concrete witnesses. -/
def mkT (t : Int) : LogEntry :=
  ⟨0, "GET", "/", 200, t, "srv", 0, none⟩

/-- Concrete two-line parser used for witnesses: `"a"` parses to an entry
accepted at 5, `"b"` to one accepted at 3, everything else is invalid. -/
def parseW : String → Option LogEntry :=
  fun s => if s = "a" then some (mkE 5 0) else if s = "b" then some (mkE 3 0) else none

/-- Concrete configuration used for witnesses: a two-line log file, no time
window. -/
def cfgW : HaproxyLogFile := ⟨some ["a", "b"], none, none⟩

/-- Eleven distinct keys with pairwise distinct counts that are all at or
above the 99999 sentinel of `cmd_top_ips`. -/
def cxHist : List (String × Nat) :=
  [("A", 100001), ("B", 100002), ("C", 100003), ("D", 100004), ("E", 100005),
   ("F", 100006), ("G", 100007), ("H", 100008), ("I", 100009), ("J", 100010),
   ("K", 100011)]

/-- The spec's example histogram: eleven distinct keys, pairwise distinct
counts, `"K"` strictly smallest. -/
def specHist : List (String × Nat) :=
  [("A", 50), ("B", 40), ("C", 39), ("D", 38), ("E", 37), ("F", 36), ("G", 35),
   ("H", 34), ("I", 33), ("J", 32), ("K", 5)]

/-- Valid entries whose captured client identifiers produce the histogram
`A:1, B:2, ..., J:2, K:3, L:4` (12 distinct keys, first occurrences in
alphabetical order). -/
def c4Entries : List LogEntry :=
  [mkH 0 "{A}",
   mkH 1 "{B}", mkH 2 "{B}", mkH 3 "{C}", mkH 4 "{C}", mkH 5 "{D}", mkH 6 "{D}",
   mkH 7 "{E}", mkH 8 "{E}", mkH 9 "{F}", mkH 10 "{F}", mkH 11 "{G}", mkH 12 "{G}",
   mkH 13 "{H}", mkH 14 "{H}", mkH 15 "{I}", mkH 16 "{I}", mkH 17 "{J}", mkH 18 "{J}",
   mkH 19 "{K}", mkH 20 "{K}", mkH 21 "{K}",
   mkH 22 "{L}", mkH 23 "{L}", mkH 24 "{L}", mkH 25 "{L}"]

example :
    cmd_queue_peaks
      [mkE 0 0, mkE 1 2, mkE 2 3, mkE 3 0, mkE 4 0, mkE 5 5, mkE 6 0] =
      [⟨3, 2, some 1, 3⟩, ⟨5, 1, some 5, 6⟩] := by decide

example : cmd_queue_peaks [mkE 0 0, mkE 1 1, mkE 2 0] = [] := by decide

example :
    cmd_queue_peaks [mkE 0 0, mkE 1 1, mkE 2 0, mkE 3 2, mkE 4 0] =
      [⟨2, 2, some 1, 4⟩] := by decide

/-- A record that is closed in a prefix is closed in any extension. -/
lemma closedIn_append {l l2 : List LogEntry} {p : PeakRecord} (h : ClosedIn l p) :
    ClosedIn (l ++ l2) p := by
  obtain ⟨i, a, b, ha, hb, hqa, hqb, hlast⟩ := h
  have hi : i < l.length := (List.getElem?_eq_some_iff.mp ha).1
  have hi1 : i + 1 < l.length := (List.getElem?_eq_some_iff.mp hb).1
  exact ⟨i, a, b, by rw [List.getElem?_append_left hi]; exact ha,
    by rw [List.getElem?_append_left hi1]; exact hb, hqa, hqb, hlast⟩

/-- Appending a queued entry makes the last element queued. -/
lemma lastQueued_concat {l : List LogEntry} {e : LogEntry} (h : 0 < e.queue_backend) :
    LastQueued (l ++ [e]) := by
  refine ⟨l.length, e, List.getElem?_concat_length l e, ?_, h⟩
  rw [List.getElem?_eq_none_iff]
  simp

/-- Appending a queue-0 entry after a queued last entry closes a run at that
entry. -/
lemma closedIn_concat_of_lastQueued {l : List LogEntry} {e : LogEntry} {p : PeakRecord}
    (hl : LastQueued l) (he : e.queue_backend = 0) (hp : p.last = e.accept_date) :
    ClosedIn (l ++ [e]) p := by
  obtain ⟨i, a, ha, hnone, hqa⟩ := hl
  have hi : i < l.length := (List.getElem?_eq_some_iff.mp ha).1
  have hlen : l.length ≤ i + 1 := List.getElem?_eq_none_iff.mp hnone
  have hieq : i + 1 = l.length := Nat.le_antisymm hi hlen
  refine ⟨i, a, e, ?_, ?_, hqa, he, hp⟩
  · rw [List.getElem?_append_left hi]; exact ha
  · rw [hieq]; exact List.getElem?_concat_length l e

/-- Scan invariant of `cmd_queue_peaks`: every accumulated record was closed
by a queue-0 entry directly following a queued entry, and whenever
`current_peak` exceeds the threshold the most recently processed entry is
still queued. -/
lemma qp_fold_inv (t : Nat) (rest : List LogEntry) :
    ∀ (pre : List LogEntry) (s : QPState),
      (∀ p ∈ s.peaks, ClosedIn pre p) →
      (t < s.current_peak → LastQueued pre) →
      (∀ p ∈ (rest.foldl (qpStep t) s).peaks, ClosedIn (pre ++ rest) p) ∧
        (t < (rest.foldl (qpStep t) s).current_peak → LastQueued (pre ++ rest)) := by
  induction rest with
  | nil => intro pre s hc hl; simpa using ⟨hc, hl⟩
  | cons e rest ih =>
    intro pre s hc hl
    have hstep1 : ∀ p ∈ (qpStep t s e).peaks, ClosedIn (pre ++ [e]) p := by
      intro p hp
      by_cases hq : e.queue_backend = 0 ∧ t < s.current_peak
      · rw [qpStep, if_pos hq] at hp
        rcases List.mem_append.mp hp with h | h
        · exact closedIn_append (hc p h)
        · have hpe := List.mem_singleton.mp h
          exact closedIn_concat_of_lastQueued (hl hq.2) hq.1 (by rw [hpe])
      · rw [qpStep, if_neg hq] at hp
        exact closedIn_append (hc p hp)
    have hstep2 : t < (qpStep t s e).current_peak → LastQueued (pre ++ [e]) := by
      intro hpk
      by_cases hq : e.queue_backend = 0 ∧ t < s.current_peak
      · rw [qpStep, if_pos hq] at hpk
        exact absurd hpk (Nat.not_lt_zero t)
      · rw [qpStep, if_neg hq] at hpk
        rcases Nat.eq_zero_or_pos e.queue_backend with h0 | hpos
        · exact absurd ⟨h0, by simpa [h0] using hpk⟩ hq
        · exact lastQueued_concat hpos
    have hres := ih (pre ++ [e]) (qpStep t s e) hstep1 hstep2
    simpa [List.append_assoc] using hres

/-- C2: for every emitted `cmd_queue_peaks` record, `last` is the accept date
of the entry that closed the run — the first queue-0 entry directly following
the run when the run is closed inside the scan, or the final entry processed
(which has positive queue) when the input ends inside a qualifying run. -/
theorem queue_peaks_last_closes_run (lines : List LogEntry) (p : PeakRecord)
    (hp : p ∈ cmd_queue_peaks lines) :
    ClosedIn lines p ∨
      ∃ e, lines.getLast? = some e ∧ 0 < e.queue_backend ∧ p.last = e.accept_date := by
  have hinv := qp_fold_inv 1 lines [] ⟨[], 0, 0, none⟩ (by simp) (by simp)
  simp only [List.nil_append] at hinv
  rw [cmd_queue_peaks] at hp
  cases hL : lines.getLast? with
  | none =>
    simp only [hL] at hp
    exact Or.inl (hinv.1 p hp)
  | some e =>
    simp only [hL] at hp
    by_cases hcond :
        0 < e.queue_backend ∧ 1 < (lines.foldl (qpStep 1) ⟨[], 0, 0, none⟩).current_peak
    · rw [if_pos hcond] at hp
      rcases List.mem_append.mp hp with h | h
      · exact Or.inl (hinv.1 p h)
      · exact Or.inr ⟨e, rfl, hcond.1, by rw [List.mem_singleton.mp h]⟩
    · rw [if_neg hcond] at hp
      exact Or.inl (hinv.1 p hp)

/-- Witness for C2 at a concrete input: the run `[2]` in `[2, 0]` is closed by
the queue-0 entry at accept date 1. -/
theorem queue_peaks_last_closes_run_witness :
    ClosedIn [mkE 0 2, mkE 1 0] ⟨2, 1, some 0, 1⟩ ∨
      ∃ e, (List.getLast? [mkE 0 2, mkE 1 0]) = some e ∧ 0 < e.queue_backend ∧
        (PeakRecord.last ⟨2, 1, some 0, 1⟩) = e.accept_date :=
  queue_peaks_last_closes_run [mkE 0 2, mkE 1 0] ⟨2, 1, some 0, 1⟩ (by decide)

/-- C1: on the queue-depth sequence `[0,2,3,0,0,5,0]` exactly two records are
emitted, with peak 3 / span 2 and peak 5 / span 1; on `[0,1,0]` (peak never
above the threshold 1) no record is emitted. -/
theorem queue_peaks_examples :
    (∀ e0 e1 e2 e3 e4 e5 e6 : LogEntry,
      e0.queue_backend = 0 → e1.queue_backend = 2 → e2.queue_backend = 3 →
      e3.queue_backend = 0 → e4.queue_backend = 0 → e5.queue_backend = 5 →
      e6.queue_backend = 0 →
      (cmd_queue_peaks [e0, e1, e2, e3, e4, e5, e6]).map (fun p => (p.peak, p.span)) =
        [(3, 2), (5, 1)]) ∧
    (∀ f0 f1 f2 : LogEntry,
      f0.queue_backend = 0 → f1.queue_backend = 1 → f2.queue_backend = 0 →
      cmd_queue_peaks [f0, f1, f2] = []) := by
  constructor
  · intro e0 e1 e2 e3 e4 e5 e6 h0 h1 h2 h3 h4 h5 h6
    simp [cmd_queue_peaks, qpStep, h0, h1, h2, h3, h4, h5, h6]
  · intro f0 f1 f2 h0 h1 h2
    simp [cmd_queue_peaks, qpStep, h0, h1, h2]

/-- Witness for C1 at concrete entries. -/
theorem queue_peaks_examples_witness :
    (cmd_queue_peaks
        [mkE 0 0, mkE 1 2, mkE 2 3, mkE 3 0, mkE 4 0, mkE 5 5, mkE 6 0]).map
        (fun p => (p.peak, p.span)) = [(3, 2), (5, 1)] ∧
      cmd_queue_peaks [mkE 0 0, mkE 1 1, mkE 2 0] = [] :=
  ⟨queue_peaks_examples.1 _ _ _ _ _ _ _ rfl rfl rfl rfl rfl rfl rfl,
   queue_peaks_examples.2 _ _ _ rfl rfl rfl⟩

/-- C10: on the queue-depth sequence `[0,1,0,2,0]` the discarded `[1]` run
leaks its counters into the `[2]` run: one record, span 2, `first` the accept
date of the queue-1 entry. -/
theorem queue_peaks_leaky_span (e0 e1 e2 e3 e4 : LogEntry)
    (h0 : e0.queue_backend = 0) (h1 : e1.queue_backend = 1) (h2 : e2.queue_backend = 0)
    (h3 : e3.queue_backend = 2) (h4 : e4.queue_backend = 0) :
    cmd_queue_peaks [e0, e1, e2, e3, e4] =
      [⟨2, 2, some e1.accept_date, e4.accept_date⟩] := by
  simp [cmd_queue_peaks, qpStep, h0, h1, h2, h3, h4]

/-- Witness for C10 at concrete entries. -/
theorem queue_peaks_leaky_span_witness :
    cmd_queue_peaks [mkE 0 0, mkE 1 1, mkE 2 0, mkE 3 2, mkE 4 0] =
      [⟨2, 2, some (mkE 1 1).accept_date, (mkE 4 0).accept_date⟩] :=
  queue_peaks_leaky_span _ _ _ _ _ rfl rfl rfl rfl rfl

/-- The invalid-line collection after the ingestion loop: exactly the stripped
lines the parser rejects, in file order. -/
lemma ingest_invalid (parse : String → Option LogEntry) (st et : Option Nat)
    (ls : List String) :
    ∀ acc : IngestResult,
      (ls.foldl (ingestStep parse st et) acc).invalid_lines =
        acc.invalid_lines ++ (ls.map pyStrip).filter (fun s => (parse s).isNone) := by
  induction ls with
  | nil => intro acc; simp
  | cons l ls ih =>
    intro acc
    rw [List.foldl_cons, ih]
    unfold ingestStep
    cases hp : parse (pyStrip l) with
    | none => simp [hp, List.append_assoc]
    | some e => by_cases hr : is_in_time_range st et e <;> simp [hp, hr]

/-- Line accounting is monotone through the scan: counted lines always cover
the retained valid and invalid ones. -/
lemma ingest_count_le (parse : String → Option LogEntry) (st et : Option Nat)
    (ls : List String) :
    ∀ acc : IngestResult,
      acc.valid_lines.length + acc.invalid_lines.length ≤ acc.total_lines →
      (ls.foldl (ingestStep parse st et) acc).valid_lines.length +
          (ls.foldl (ingestStep parse st et) acc).invalid_lines.length ≤
        (ls.foldl (ingestStep parse st et) acc).total_lines := by
  induction ls with
  | nil => intro acc h; simpa using h
  | cons l ls ih =>
    intro acc h
    rw [List.foldl_cons]
    apply ih
    unfold ingestStep
    cases hp : parse (pyStrip l) with
    | none => simp [hp]; omega
    | some e =>
      by_cases hr : is_in_time_range st et e <;> simp [hp, hr] <;> omega

/-- With no start time configured every line lands in exactly one of the two
collections, so the accounting is an equality. -/
lemma ingest_count_eq (parse : String → Option LogEntry) (et : Option Nat)
    (ls : List String) :
    ∀ acc : IngestResult,
      acc.valid_lines.length + acc.invalid_lines.length = acc.total_lines →
      (ls.foldl (ingestStep parse none et) acc).valid_lines.length +
          (ls.foldl (ingestStep parse none et) acc).invalid_lines.length =
        (ls.foldl (ingestStep parse none et) acc).total_lines := by
  induction ls with
  | nil => intro acc h; simpa using h
  | cons l ls ih =>
    intro acc h
    rw [List.foldl_cons]
    apply ih
    unfold ingestStep
    cases hp : parse (pyStrip l) with
    | none => simp [hp]; omega
    | some e => simp [hp, is_in_time_range]; omega

/-- C7: after ingestion, `total_lines` is at least the retained valid plus
invalid lines, with equality when no time window is configured. -/
theorem parse_file_line_accounting (parse : String → Option LogEntry)
    (cfg : HaproxyLogFile) (res : IngestResult)
    (h : parse_file parse cfg = Except.ok res) :
    res.valid_lines.length + res.invalid_lines.length ≤ res.total_lines ∧
      (cfg.start_time = none →
        res.valid_lines.length + res.invalid_lines.length = res.total_lines) := by
  cases hf : cfg.logfile with
  | none => rw [parse_file, hf] at h; exact absurd h (by simp)
  | some ls =>
    rw [parse_file, hf] at h
    have hres := (Except.ok.injEq _ _).mp h
    have hlen : res.valid_lines.length = (rawIngest parse cfg ls).valid_lines.length := by
      rw [← hres]
      exact (List.perm_insertionSort dateLE _).length_eq
    have hval : res.invalid_lines = (rawIngest parse cfg ls).invalid_lines := by rw [← hres]
    have htot : res.total_lines = (rawIngest parse cfg ls).total_lines := by rw [← hres]
    rw [hlen, hval, htot]
    constructor
    · exact ingest_count_le parse cfg.start_time (end_time cfg) ls ⟨0, [], []⟩ (by simp)
    · intro hst
      unfold rawIngest
      rw [hst]
      exact ingest_count_eq parse (end_time cfg) ls ⟨0, [], []⟩ (by simp)

/-- Witness for C7 at a concrete run: `"a"` and `"b"` parse, `"zz"` does not,
no window is configured. -/
theorem parse_file_line_accounting_witness :
    (IngestResult.valid_lines ⟨3, [mkE 3 0, mkE 5 0], ["zz"]⟩).length +
          (IngestResult.invalid_lines ⟨3, [mkE 3 0, mkE 5 0], ["zz"]⟩).length ≤
        (IngestResult.total_lines ⟨3, [mkE 3 0, mkE 5 0], ["zz"]⟩) ∧
      (IngestResult.valid_lines ⟨3, [mkE 3 0, mkE 5 0], ["zz"]⟩).length +
          (IngestResult.invalid_lines ⟨3, [mkE 3 0, mkE 5 0], ["zz"]⟩).length =
        (IngestResult.total_lines ⟨3, [mkE 3 0, mkE 5 0], ["zz"]⟩) :=
  ⟨(parse_file_line_accounting parseW ⟨some ["a", "b", "zz"], none, none⟩ _ (by rfl)).1,
   (parse_file_line_accounting parseW ⟨some ["a", "b", "zz"], none, none⟩ _ (by rfl)).2 rfl⟩

/-- C9: ingestion errors exactly when no log file is configured; with a
configured file it always succeeds, and every line the parser rejects is
recorded, stripped, in `invalid_lines`, in file order. -/
theorem parse_file_error_handling (parse : String → Option LogEntry)
    (cfg : HaproxyLogFile) :
    ((∃ msg, parse_file parse cfg = Except.error msg) ↔ cfg.logfile = none) ∧
      ∀ ls, cfg.logfile = some ls →
        ∃ res, parse_file parse cfg = Except.ok res ∧
          res.invalid_lines = (ls.map pyStrip).filter (fun s => (parse s).isNone) := by
  constructor
  · constructor
    · rintro ⟨msg, hmsg⟩
      cases hf : cfg.logfile with
      | none => rfl
      | some ls => rw [parse_file, hf] at hmsg; exact absurd hmsg (by simp)
    · intro hf
      exact ⟨"No log file is configured yet!", by rw [parse_file, hf]⟩
  · intro ls hf
    refine ⟨_, by rw [parse_file, hf], ?_⟩
    exact ingest_invalid parse cfg.start_time (end_time cfg) ls ⟨0, [], []⟩

/-- Witness for C9 at a concrete run. -/
theorem parse_file_error_handling_witness :
    ((∃ msg, parse_file parseW ⟨none, none, none⟩ = Except.error msg)) ∧
      ∃ res, parse_file parseW cfgW = Except.ok res ∧
        res.invalid_lines =
          ((["a", "b"].map pyStrip).filter (fun s => (parseW s).isNone)) :=
  ⟨(parse_file_error_handling parseW ⟨none, none, none⟩).1.mpr rfl,
   (parse_file_error_handling parseW cfgW).2 ["a", "b"] rfl⟩

/-- Inserting an entry into a list moves it past only strictly earlier
entries, so the sublist of any fixed accept date gains the new entry at the
front exactly when the dates match. -/
lemma orderedInsert_filter_date (x : LogEntry) (d : Nat) :
    ∀ m : List LogEntry,
      (List.orderedInsert dateLE x m).filter (fun e => e.accept_date == d) =
        (if x.accept_date = d then [x] else []) ++
          m.filter (fun e => e.accept_date == d) := by
  intro m
  induction m with
  | nil =>
    by_cases hx : x.accept_date = d <;>
      simp [List.orderedInsert, List.filter_cons, hx]
  | cons y ys ih =>
    rw [List.orderedInsert]
    by_cases hxy : dateLE x y
    · rw [if_pos hxy]
      by_cases hx : x.accept_date = d <;> simp [List.filter_cons, hx]
    · rw [if_neg hxy]
      rw [List.filter_cons, List.filter_cons, ih]
      have hyx : y.accept_date < x.accept_date := Nat.lt_of_not_le hxy
      by_cases hx : x.accept_date = d
      · have hy : ¬(y.accept_date == d) = true := by
          simp only [beq_iff_eq]
          omega
        simp [hx, hy]
      · by_cases hy : y.accept_date = d <;> simp [hx, hy]

/-- Stability of `_sort_lines`: for every accept date, the subsequence of
entries carrying that date is unchanged, i.e. equal dates keep their file
order. -/
lemma sort_lines_filter_date (l : List LogEntry) (d : Nat) :
    (sort_lines l).filter (fun e => e.accept_date == d) =
      l.filter (fun e => e.accept_date == d) := by
  induction l with
  | nil => rfl
  | cons x xs ih =>
    rw [sort_lines, List.insertionSort]
    rw [show List.insertionSort dateLE xs = sort_lines xs from rfl]
    rw [orderedInsert_filter_date x d (sort_lines xs), ih, List.filter_cons]
    by_cases hx : x.accept_date = d <;> simp [hx]

/-- C5: after every successful ingestion the valid entries are sorted
non-decreasing by accept date, and the sort is stable — for every date the
subsequence of entries with that date equals the pre-sort (file-order)
subsequence. -/
theorem parse_file_sorted_and_stable (parse : String → Option LogEntry)
    (cfg : HaproxyLogFile) (res : IngestResult)
    (h : parse_file parse cfg = Except.ok res) :
    List.Sorted dateLE res.valid_lines ∧
      ∀ ls, cfg.logfile = some ls →
        ∀ d, res.valid_lines.filter (fun e => e.accept_date == d) =
          (rawIngest parse cfg ls).valid_lines.filter (fun e => e.accept_date == d) := by
  cases hf : cfg.logfile with
  | none => rw [parse_file, hf] at h; exact absurd h (by simp)
  | some ls =>
    rw [parse_file, hf] at h
    have hres := (Except.ok.injEq _ _).mp h
    constructor
    · rw [← hres]
      exact List.sorted_insertionSort dateLE _
    · intro ls' hls' d
      injection hls' with hls2
      subst hls2
      rw [← hres]
      exact sort_lines_filter_date _ d

/-- Witness for C5 at a concrete run: `"a"` (accepted at 5) is logged before
`"b"` (accepted at 3) and the sort reorders them. -/
theorem parse_file_sorted_and_stable_witness :
    List.Sorted dateLE (IngestResult.valid_lines ⟨2, [mkE 3 0, mkE 5 0], []⟩) ∧
      (IngestResult.valid_lines ⟨2, [mkE 3 0, mkE 5 0], []⟩).filter
          (fun e => e.accept_date == 3) =
        (rawIngest parseW cfgW ["a", "b"]).valid_lines.filter
          (fun e => e.accept_date == 3) :=
  ⟨(parse_file_sorted_and_stable parseW cfgW ⟨2, [mkE 3 0, mkE 5 0], []⟩ (by rfl)).1,
   (parse_file_sorted_and_stable parseW cfgW ⟨2, [mkE 3 0, mkE 5 0], []⟩ (by rfl)).2
     ["a", "b"] rfl 3⟩

/-- C6: the window test is inclusive at both boundaries — with no start time
everything is in range; with only a start time, in range iff
`start ≤ accept_date`; with both bounds, in range iff
`start ≤ accept_date ≤ end`. -/
theorem is_in_time_range_boundaries :
    (∀ (et : Option Nat) (e : LogEntry), is_in_time_range none et e = true) ∧
      (∀ (s : Nat) (e : LogEntry),
        is_in_time_range (some s) none e = true ↔ s ≤ e.accept_date) ∧
      (∀ (s en : Nat) (e : LogEntry),
        is_in_time_range (some s) (some en) e = true ↔
          s ≤ e.accept_date ∧ e.accept_date ≤ en) := by
  refine ⟨fun et e => rfl, fun s e => ?_, fun s en e => ?_⟩
  · rw [is_in_time_range]
    by_cases h : e.accept_date < s <;> simp [h] <;> omega
  · rw [is_in_time_range]
    by_cases h : e.accept_date < s <;> simp [h] <;> omega

/-- C8: `cmd_slow_requests` returns exactly the response times strictly above
1000 ms, in input order; 1000 is excluded and 1001 included. -/
theorem cmd_slow_requests_spec :
    (∀ lines : List LogEntry,
      cmd_slow_requests lines =
        (lines.filter (fun e => 1000 < e.time_wait_response)).map
          (fun e => e.time_wait_response)) ∧
      (∀ e : LogEntry, e.time_wait_response = 1000 → cmd_slow_requests [e] = []) ∧
      (∀ e : LogEntry, e.time_wait_response = 1001 →
        cmd_slow_requests [e] = [e.time_wait_response]) := by
  have hmain : ∀ lines : List LogEntry,
      cmd_slow_requests lines =
        (lines.filter (fun e => 1000 < e.time_wait_response)).map
          (fun e => e.time_wait_response) := by
    intro lines
    induction lines with
    | nil => rfl
    | cons e rest ih =>
      rw [cmd_slow_requests, List.filter_cons]
      by_cases h : (1000 : Int) < e.time_wait_response <;> simp [h, ih]
  refine ⟨hmain, fun e he => ?_, fun e he => ?_⟩
  · rw [hmain]; simp [List.filter_cons, he]
  · rw [hmain]; simp [List.filter_cons, he]

/-- Witness for C8 at concrete entries with response times 1000 and 1001. -/
theorem cmd_slow_requests_spec_witness :
    cmd_slow_requests [mkT 1000] = [] ∧
      cmd_slow_requests [mkT 1001] = [(mkT 1001).time_wait_response] :=
  ⟨cmd_slow_requests_spec.2.1 (mkT 1000) rfl, cmd_slow_requests_spec.2.2 (mkT 1001) rfl⟩

/-- The eviction scan preserves the candidate-list length. -/
lemma replaceFirst_length (m : Option String) (n : IpInfo) :
    ∀ l : List IpInfo, (replaceFirst l m n).length = l.length := by
  intro l
  induction l with
  | nil => rfl
  | cons x xs ih =>
    rw [replaceFirst]
    by_cases h : some x.ip = m <;> simp [h, ih]

/-- The candidate list never grows beyond the threshold. -/
lemma topFold_length_le (hist : List (String × Nat)) :
    ∀ s : TopState, s.ips_list.length ≤ 10 →
      ((hist.foldl (topStep 10) s).ips_list).length ≤ 10 := by
  induction hist with
  | nil => intro s h; simpa using h
  | cons kv rest ih =>
    intro s h
    rw [List.foldl_cons]
    apply ih
    rw [topStep]
    by_cases h1 : s.ips_list.length < 10
    · rw [if_pos h1]; simp; omega
    · rw [if_neg h1]
      by_cases h2 : s.min_repetitions < kv.2
      · rw [if_pos h2]; simpa [replaceFirst_length] using h
      · rw [if_neg h2]; exact h

/-- What the running minimum computes: either nothing beat the initial value,
or it lands on a minimal element of the list that beat it. -/
lemma runMin_cases :
    ∀ (l : List (String × Nat)) (m0 : Nat) (mi0 : Option String),
      (runMin l (m0, mi0) = (m0, mi0) ∧ ∀ kv ∈ l, m0 ≤ kv.2) ∨
        ∃ kv ∈ l, runMin l (m0, mi0) = (kv.2, some kv.1) ∧ kv.2 < m0 ∧
          ∀ kv2 ∈ l, kv.2 ≤ kv2.2 := by
  intro l
  induction l with
  | nil => intro m0 mi0; left; exact ⟨rfl, by simp⟩
  | cons kv rest ih =>
    intro m0 mi0
    rw [runMin]
    by_cases h : kv.2 < m0
    · rw [if_pos h]
      rcases ih kv.2 (some kv.1) with ⟨heq, hall⟩ | ⟨kv2, hmem, heq, hlt, hall⟩
      · refine Or.inr ⟨kv, List.mem_cons_self kv rest, heq, h, ?_⟩
        intro kv2 h2
        rcases List.mem_cons.mp h2 with rfl | hm
        · exact Nat.le_refl _
        · exact hall kv2 hm
      · refine Or.inr ⟨kv2, List.mem_cons_of_mem kv hmem, heq, Nat.lt_trans hlt h, ?_⟩
        intro kv3 h3
        rcases List.mem_cons.mp h3 with rfl | hm
        · exact Nat.le_of_lt hlt
        · exact hall kv3 hm
    · rw [if_neg h]
      rcases ih m0 mi0 with ⟨heq, hall⟩ | ⟨kv2, hmem, heq, hlt, hall⟩
      · refine Or.inl ⟨heq, ?_⟩
        intro kv2 h2
        rcases List.mem_cons.mp h2 with rfl | hm
        · exact Nat.le_of_not_lt h
        · exact hall kv2 hm
      · refine Or.inr ⟨kv2, List.mem_cons_of_mem kv hmem, heq, hlt, ?_⟩
        intro kv3 h3
        rcases List.mem_cons.mp h3 with rfl | hm
        · exact Nat.le_of_lt (Nat.lt_of_lt_of_le hlt (Nat.le_of_not_lt h))
        · exact hall kv3 hm

/-- Fill phase of `cmd_top_ips`: while the histogram still fits under the
threshold every key is appended and the minimum trackers follow `runMin`. -/
lemma topFold_fill :
    ∀ (l : List (String × Nat)) (s : TopState), s.ips_list.length + l.length ≤ 10 →
      l.foldl (topStep 10) s =
        ⟨s.ips_list ++ l.map mkIp,
         (runMin l (s.min_repetitions, s.min_ip)).1,
         (runMin l (s.min_repetitions, s.min_ip)).2⟩ := by
  intro l
  induction l with
  | nil => intro s h; simp [runMin]
  | cons kv rest ih =>
    intro s h
    have hlt : s.ips_list.length < 10 := by
      simp only [List.length_cons] at h
      omega
    rw [List.foldl_cons, runMin, topStep, if_pos hlt]
    simp only []
    have hfit : (s.ips_list ++ [(⟨kv.1, kv.2⟩ : IpInfo)]).length + rest.length ≤ 10 := by
      simp only [List.length_cons] at h
      simp only [List.length_append, List.length_cons, List.length_nil]
      omega
    by_cases hm : kv.2 < s.min_repetitions
    · rw [if_pos hm, if_pos hm, if_pos hm]
      have hstep :=
        ih (⟨s.ips_list ++ [(⟨kv.1, kv.2⟩ : IpInfo)], kv.2, some kv.1⟩ : TopState) hfit
      rw [hstep]
      simp [mkIp, List.append_assoc]
    · rw [if_neg hm, if_neg hm, if_neg hm]
      have hstep :=
        ih (⟨s.ips_list ++ [(⟨kv.1, kv.2⟩ : IpInfo)], s.min_repetitions, s.min_ip⟩ : TopState)
          hfit
      rw [hstep]
      simp [mkIp, List.append_assoc]

/-- When the candidate keys in front of the tracked one all differ from it,
the eviction scan replaces exactly the tracked candidate. -/
lemma replaceFirst_middle (n : IpInfo) (key : String) :
    ∀ (A : List IpInfo), (∀ a ∈ A, a.ip ≠ key) →
      ∀ (x : IpInfo) (B : List IpInfo), x.ip = key →
        replaceFirst (A ++ x :: B) (some key) n = A ++ n :: B := by
  intro A
  induction A with
  | nil =>
    intro _ x B hx
    rw [List.nil_append, replaceFirst, if_pos (by rw [hx]), List.nil_append]
  | cons a A ih =>
    intro hA x B hx
    rw [List.cons_append, replaceFirst,
      if_neg (by simpa using hA a (List.mem_cons_self a A)),
      ih (fun a2 h2 => hA a2 (List.mem_cons_of_mem a h2)) x B hx, List.cons_append]

/-- C3 counterexample: eleven distinct keys with pairwise distinct counts all
at or above the 99999 sentinel.  The minimum trackers never move off the
sentinel, so the new key `"K"` — which has the strictly largest count — is
dropped while the smallest-count key `"A"` is retained: the returned set does
not omit the smallest-count key. -/
theorem cmd_top_ips_sentinel_counterexample :
    cxHist.length = 11 ∧ (cxHist.map Prod.fst).Nodup ∧ (cxHist.map Prod.snd).Nodup ∧
      ("K", 100011) ∈ cxHist ∧ (∀ kv ∈ cxHist, kv.1 ≠ "K" → kv.2 < 100011) ∧
      (∀ kv ∈ cxHist, 100001 ≤ kv.2) ∧
      (∀ r ∈ cmd_top_ips cxHist, r.ip ≠ "K") ∧
      (⟨"A", 100001⟩ : IpInfo) ∈ cmd_top_ips cxHist := by decide

/-- C4: an input whose histogram makes `cmd_top_ips` keep a candidate with
strictly fewer repetitions than a key it omits — after `"K"` evicts the
minimum candidate `"A"`, the stale `min_ip` no longer matches any candidate,
so `"L"` (count 4) is dropped while `"B"` (count 2) stays. -/
theorem cmd_top_ips_retains_smaller :
    ∃ (entries : List LogEntry) (kept omitted : String × Nat),
      kept ∈ cmd_ip_counter entries ∧ omitted ∈ cmd_ip_counter entries ∧
      (⟨kept.1, kept.2⟩ : IpInfo) ∈ cmd_top_ips (cmd_ip_counter entries) ∧
      (∀ r ∈ cmd_top_ips (cmd_ip_counter entries), r.ip ≠ omitted.1) ∧
      kept.2 < omitted.2 := by
  refine ⟨c4Entries, ("B", 2), ("L", 4), ?_, ?_, ?_, ?_, ?_⟩ <;> decide

/-- Building an `IpInfo` from a histogram pair is injective. -/
lemma mkIp_injective : Function.Injective mkIp := by
  intro a b h
  cases a
  cases b
  simpa [mkIp, IpInfo.mk.injEq, Prod.mk.injEq] using h

/-- C3 (amended): `cmd_top_ips` never returns more than 10 entries and is
always sorted descending by repetitions; and on every histogram of 11
distinct keys with pairwise distinct counts all below the 99999 sentinel it
returns exactly 10 entries and omits exactly the smallest-count key. -/
theorem cmd_top_ips_spec :
    (∀ hist : List (String × Nat),
      (cmd_top_ips hist).length ≤ 10 ∧ List.Sorted ipGE (cmd_top_ips hist)) ∧
      ∀ hist : List (String × Nat),
        hist.length = 11 →
        (hist.map Prod.fst).Nodup →
        (hist.map Prod.snd).Nodup →
        (∀ kv ∈ hist, kv.2 < 99999) →
        (cmd_top_ips hist).length = 10 ∧
          ∀ kv ∈ hist, (mkIp kv ∈ cmd_top_ips hist ↔ ∃ kv2 ∈ hist, kv2.2 < kv.2) := by
  have hgen : ∀ hist : List (String × Nat),
      (cmd_top_ips hist).length ≤ 10 ∧ List.Sorted ipGE (cmd_top_ips hist) := by
    intro hist
    constructor
    · rw [cmd_top_ips, (List.perm_insertionSort ipGE _).length_eq]
      exact topFold_length_le hist ⟨[], 99999, none⟩ (by simp)
    · exact List.sorted_insertionSort ipGE _
  refine ⟨hgen, ?_⟩
  intro hist hlen hkeys hcounts hsmall
  obtain ⟨kv10, hdrop⟩ : ∃ kv10, hist.drop 10 = [kv10] :=
    List.length_eq_one.mp (by rw [List.length_drop, hlen])
  have hsplit : hist = hist.take 10 ++ [kv10] := by
    rw [← hdrop, List.take_append_drop]
  have hfl : (hist.take 10).length = 10 := by
    rw [List.length_take, hlen]
    omega
  have hkv10_hist : kv10 ∈ hist := by
    rw [hsplit]
    exact List.mem_append_right _ (List.mem_singleton_self kv10)
  have hfill := topFold_fill (hist.take 10) ⟨[], 99999, none⟩ (by simp [hfl])
  rcases runMin_cases (hist.take 10) 99999 none with ⟨heqr, hall⟩ |
    ⟨kvm, hkvm, heqr, hltm, hmin⟩
  · exfalso
    have hne : hist.take 10 ≠ [] := by
      intro h0
      rw [h0] at hfl
      simp at hfl
    obtain ⟨kv0, hkv0⟩ := List.exists_mem_of_ne_nil _ hne
    have h1 := hall kv0 hkv0
    have h2 := hsmall kv0 (List.take_subset 10 hist hkv0)
    omega
  · have hkvm_hist : kvm ∈ hist := List.take_subset 10 hist hkvm
    have hs10 : (hist.take 10).foldl (topStep 10) ⟨[], 99999, none⟩ =
        ⟨(hist.take 10).map mkIp, kvm.2, some kvm.1⟩ := by
      rw [hfill, heqr]
      simp
    have hsfold : hist.foldl (topStep 10) ⟨[], 99999, none⟩ =
        topStep 10 ⟨(hist.take 10).map mkIp, kvm.2, some kvm.1⟩ kv10 := by
      conv_lhs => rw [hsplit]
      rw [List.foldl_append, hs10, List.foldl_cons, List.foldl_nil]
    have hmaplen : ((hist.take 10).map mkIp).length = 10 := by
      rw [List.length_map, hfl]
    have hnotlt : ¬ ((hist.take 10).map mkIp).length < 10 := by omega
    have hcsplit : ((hist.take 10).map Prod.snd ++ [kv10.2]).Nodup := by
      have h2 := hcounts
      rw [hsplit, List.map_append] at h2
      simpa using h2
    have hkv10cnotin : kv10.2 ∉ (hist.take 10).map Prod.snd := by
      intro hmem2
      exact List.disjoint_of_nodup_append hcsplit hmem2 (List.mem_singleton_self _)
    have hne_counts : kv10.2 ≠ kvm.2 := by
      intro hc
      exact hkv10cnotin (hc ▸ List.mem_map_of_mem Prod.snd hkvm)
    have hinj := List.inj_on_of_nodup_map hcounts
    have hksplit : ((hist.take 10).map Prod.fst ++ [kv10.1]).Nodup := by
      have h2 := hkeys
      rw [hsplit, List.map_append] at h2
      simpa using h2
    have hfirstkeys : ((hist.take 10).map Prod.fst).Nodup := hksplit.of_append_left
    rcases Nat.lt_or_ge kvm.2 kv10.2 with hcmp | hge
    · obtain ⟨A, B, hAB⟩ := List.append_of_mem hkvm
      have hABkeys : (A.map Prod.fst ++ kvm.1 :: B.map Prod.fst).Nodup := by
        have h2 := hfirstkeys
        rw [hAB, List.map_append, List.map_cons] at h2
        exact h2
      have hAkeys : ∀ a ∈ A, a.1 ≠ kvm.1 := by
        intro a ha hc
        refine List.disjoint_of_nodup_append hABkeys
          (List.mem_map_of_mem Prod.fst ha) ?_
        rw [hc]
        exact List.mem_cons_self _ _
      have hkvmA : kvm ∉ A := fun h => hAkeys kvm h rfl
      have hkvmB : kvm ∉ B := by
        intro h
        have h2 := hABkeys.of_append_right
        rw [List.nodup_cons] at h2
        exact h2.1 (List.mem_map_of_mem Prod.fst h)
      have hipsA : (hist.take 10).map mkIp = A.map mkIp ++ mkIp kvm :: B.map mkIp := by
        rw [hAB, List.map_append, List.map_cons]
      have hmapA : ∀ a ∈ A.map mkIp, a.ip ≠ kvm.1 := by
        intro a ha
        obtain ⟨x, hx, rfl⟩ := List.mem_map.mp ha
        exact hAkeys x hx
      have hips : (hist.foldl (topStep 10) ⟨[], 99999, none⟩).ips_list =
          A.map mkIp ++ (⟨kv10.1, kv10.2⟩ : IpInfo) :: B.map mkIp := by
        rw [hsfold]
        simp only [topStep]
        rw [if_neg hnotlt, if_pos hcmp]
        show replaceFirst ((hist.take 10).map mkIp) (some kvm.1) ⟨kv10.1, kv10.2⟩ =
          A.map mkIp ++ (⟨kv10.1, kv10.2⟩ : IpInfo) :: B.map mkIp
        rw [hipsA]
        exact replaceFirst_middle ⟨kv10.1, kv10.2⟩ kvm.1 (A.map mkIp) hmapA (mkIp kvm)
          (B.map mkIp) rfl
      have hABlen : (hist.take 10).length = A.length + (B.length + 1) := by
        rw [hAB]
        simp
      constructor
      · rw [cmd_top_ips, (List.perm_insertionSort ipGE _).length_eq, hips]
        simp only [List.length_append, List.length_cons, List.length_map]
        omega
      · intro kv hkv
        have hmemiff : ∀ x : IpInfo, (x ∈ cmd_top_ips hist ↔
            x ∈ A.map mkIp ++ (⟨kv10.1, kv10.2⟩ : IpInfo) :: B.map mkIp) := by
          intro x
          rw [cmd_top_ips, (List.perm_insertionSort ipGE _).mem_iff, hips]
        constructor
        · intro hin
          rcases List.mem_append.mp ((hmemiff _).mp hin) with hA2 | hrest
          · have hkvA : kv ∈ A := (List.mem_map_of_injective mkIp_injective).mp hA2
            have hle : kvm.2 ≤ kv.2 := by
              refine hmin kv ?_
              rw [hAB]
              exact List.mem_append_left _ hkvA
            have hnekv : kv ≠ kvm := fun hc => hkvmA (hc ▸ hkvA)
            have hne2 : kvm.2 ≠ kv.2 := fun hc => hnekv (hinj hkv hkvm_hist hc.symm)
            exact ⟨kvm, hkvm_hist, Nat.lt_of_le_of_ne hle hne2⟩
          · rcases List.mem_cons.mp hrest with heqx | hB2
            · have hkveq : kv = kv10 := by
                have h1 : kv.1 = kv10.1 ∧ kv.2 = kv10.2 := by
                  simpa [mkIp, IpInfo.mk.injEq] using heqx
                exact Prod.ext h1.1 h1.2
              exact ⟨kvm, hkvm_hist, hkveq ▸ hcmp⟩
            · have hkvB : kv ∈ B := (List.mem_map_of_injective mkIp_injective).mp hB2
              have hle : kvm.2 ≤ kv.2 := by
                refine hmin kv ?_
                rw [hAB]
                exact List.mem_append_right _ (List.mem_cons_of_mem _ hkvB)
              have hnekv : kv ≠ kvm := fun hc => hkvmB (hc ▸ hkvB)
              have hne2 : kvm.2 ≠ kv.2 := fun hc => hnekv (hinj hkv hkvm_hist hc.symm)
              exact ⟨kvm, hkvm_hist, Nat.lt_of_le_of_ne hle hne2⟩
        · rintro ⟨kv2, hkv2, hlt2⟩
          have hcases : kv ∈ A ∨ kv = kvm ∨ kv ∈ B ∨ kv = kv10 := by
            have h2 := hkv
            rw [hsplit, hAB] at h2
            simp only [List.mem_append, List.mem_cons, List.mem_singleton] at h2
            tauto
          rcases hcases with h | h | h | h
          · exact (hmemiff _).mpr (List.mem_append_left _ (List.mem_map_of_mem mkIp h))
          · exfalso
            rw [h] at hlt2
            have h3 := hkv2
            rw [hsplit] at h3
            rcases List.mem_append.mp h3 with h4 | h4
            · have := hmin kv2 h4
              omega
            · have h5 : kv2 = kv10 := List.mem_singleton.mp h4
              rw [h5] at hlt2
              omega
          · exact (hmemiff _).mpr
              (List.mem_append_right _ (List.mem_cons_of_mem _ (List.mem_map_of_mem mkIp h)))
          · refine (hmemiff _).mpr (List.mem_append_right _ ?_)
            rw [h]
            exact List.mem_cons_self _ _
    · have hlt10 : kv10.2 < kvm.2 := Nat.lt_of_le_of_ne hge hne_counts
      have hips : (hist.foldl (topStep 10) ⟨[], 99999, none⟩).ips_list =
          (hist.take 10).map mkIp := by
        rw [hsfold]
        simp only [topStep]
        rw [if_neg hnotlt, if_neg (by omega : ¬ kvm.2 < kv10.2)]
      have hmemiff : ∀ x : IpInfo,
          (x ∈ cmd_top_ips hist ↔ x ∈ (hist.take 10).map mkIp) := by
        intro x
        rw [cmd_top_ips, (List.perm_insertionSort ipGE _).mem_iff, hips]
      constructor
      · rw [cmd_top_ips, (List.perm_insertionSort ipGE _).length_eq, hips, hmaplen]
      · intro kv hkv
        constructor
        · intro hin
          have hkvt : kv ∈ hist.take 10 :=
            (List.mem_map_of_injective mkIp_injective).mp ((hmemiff _).mp hin)
          refine ⟨kv10, hkv10_hist, ?_⟩
          have := hmin kv hkvt
          omega
        · rintro ⟨kv2, hkv2, hlt2⟩
          by_cases hkvt : kv ∈ hist.take 10
          · exact (hmemiff _).mpr (List.mem_map_of_mem mkIp hkvt)
          · exfalso
            have h3 := hkv
            rw [hsplit] at h3
            rcases List.mem_append.mp h3 with h4 | h4
            · exact hkvt h4
            · have hkveq : kv = kv10 := List.mem_singleton.mp h4
              rw [hkveq] at hlt2
              have h5 := hkv2
              rw [hsplit] at h5
              rcases List.mem_append.mp h5 with h6 | h6
              · have := hmin kv2 h6
                omega
              · have h7 : kv2 = kv10 := List.mem_singleton.mp h6
                rw [h7] at hlt2
                omega

/-- Witness for C3 at the spec's example histogram `A:50, ..., J:32, K:5`. -/
theorem cmd_top_ips_spec_witness :
    (cmd_top_ips specHist).length = 10 ∧
      (mkIp ("K", 5) ∈ cmd_top_ips specHist ↔ ∃ kv2 ∈ specHist, kv2.2 < ("K", 5).2) :=
  ⟨(cmd_top_ips_spec.2 specHist (by decide) (by decide) (by decide) (by decide)).1,
   (cmd_top_ips_spec.2 specHist (by decide) (by decide) (by decide) (by decide)).2
     ("K", 5) (by decide)⟩
